import Mathlib

/-!
Verification of the deletweet repository's rate-limit-aware deletion
scheduler.  The JavaScript source is embedded shallowly: the two batch
loops (the CLI `deleteTweetsInBatches` in `src/index.js` and the web
server's `processDeletion`) become fuel-based recursive functions over an
oracle that supplies the outcome of each remote delete attempt; the HTTP
endpoint handlers become pure functions on an explicit server state.
JavaScript numbers that hold integral values are modelled as `Int`/`Nat`;
the one genuinely fractional computation (`Math.round` of a percentage)
is modelled over `ℚ`.
-/

namespace Deletweet

/-- Progress counters kept by the web server (`deletionStats` in the server
file, line 15): `deleted`, `failed`, `total`. -/
structure Stats where
  deleted : Nat
  failed : Nat
  total : Nat
  deriving DecidableEq, Repr

/-- Result of one remote delete attempt, as seen by the batch loops.
`throttle reset nowMs` models a thrown error with `code === 429` carrying the
optional `error.rateLimit.reset` epoch in seconds and the wall clock
`new Date()` in milliseconds observed while handling the error.  `failure`
models `deleteTweet` returning an object with `success: false`
(`src/index.js` lines 99–110 catch every non-429 error and re-throw 429). -/
inductive ApiResult where
  | success : ApiResult
  | failure : String → ApiResult
  | throttle : Option Int → Int → ApiResult
  deriving DecidableEq, Repr

/-- Observable events of one run: a deletion attempt (with the deleted/failed
counters as they stand right after the attempt is recorded), a rate-limit
sleep of a computed number of minutes, and an inter-batch sleep. -/
inductive Event where
  | attempt : String → ApiResult → Nat → Nat → Event
  | rateSleep : Int → Event
  | interBatchSleep : Nat → Event
  deriving DecidableEq, Repr

/-- JavaScript `Array.prototype.slice(start, stop)`: both indices are clamped
to the array bounds and negative indices count from the end. -/
def jsSlice {α : Type} (start stop : Int) (l : List α) : List α :=
  let n : Int := l.length
  let s : Int := if start < 0 then max (n + start) 0 else min start n
  let e : Int := if stop < 0 then max (n + stop) 0 else min stop n
  (l.take e.toNat).drop s.toNat

/-- Ceiling division: `Math.ceil(a / b)` for an integer numerator and positive integer
denominator, as it appears in `Math.ceil((resetTime - new Date()) / (1000 * 60))`. -/
def ceilDiv (a b : Int) : Int := -(-a / b)

/-- Wait-minutes computation of the CLI scheduler (`src/index.js` lines
160–168): with a reset epoch, `Math.ceil((reset * 1000 - now) / 60000)` plus a
5 minute buffer; without one, `24 * 60` minutes. -/
def rateLimitWaitCli : Option Int → Int → Int
  | some reset, nowMs => ceilDiv (reset * 1000 - nowMs) 60000 + 5
  | none, _ => 24 * 60

/-- Wait-minutes computation of the web scheduler (`processDeletion`, server
file lines 134–140): buffer of 1 minute, fallback of 15 minutes. -/
def rateLimitWaitWeb : Option Int → Int → Int
  | some reset, nowMs => ceilDiv (reset * 1000 - nowMs) 60000 + 1
  | none, _ => 15

/-- Fuel-indexed worker for `chunkList`; the fuel is an upper bound on the
number of chunks and is irrelevant once it reaches the list length. -/
def chunkListFuel {α : Type} : Nat → Nat → List α → List (List α)
  | 0, _, _ => []
  | fuel + 1, b, l => if l.isEmpty then [] else l.take b :: chunkListFuel fuel b (l.drop b)

/-- The batch partition computed by
`for (let i = 0; i < tweets.length; i += B) tweets.slice(i, i + B)`
(`src/index.js` lines 119–120).  A zero batch size loops forever in the
source; here it yields no chunks and is excluded by every claim. -/
def chunkList {α : Type} (b : Nat) (l : List α) : List (List α) :=
  if b = 0 then [] else chunkListFuel l.length b l

/-- Mutable state of one `processDeletion` run: the outer loop index `i`
(an `Int`, because the 429 handler decrements it), `deletionStats`, and
`deleter.deletedTweets` (ids only; timestamps carry no information here). -/
structure WebRunState where
  i : Int
  stats : Stats
  log : List String
  deriving DecidableEq, Repr

/-- Inner `for (const tweet of batch)` loop of `processDeletion` (server file
lines 110–149).  Each attempt consumes one oracle entry.  On success the
counter is incremented and the id appended to `deleter.deletedTweets`; on a
non-429 failure the failed counter is incremented; on a 429 the code sleeps
for the computed wait and executes `i--; continue`, which decrements the
OUTER batch index while the for-of cursor moves to the NEXT element of
`batch`.  Returns `none` when the oracle is exhausted mid-batch. -/
def webInner : WebRunState → List String → List ApiResult → Option (WebRunState × List ApiResult × List Event)
  | rs, [], oracle => some (rs, oracle, [])
  | _, _ :: _, [] => none
  | rs, tid :: rest, .success :: oracle =>
    match webInner ⟨rs.i, ⟨rs.stats.deleted + 1, rs.stats.failed, rs.stats.total⟩,
        rs.log ++ [tid]⟩ rest oracle with
    | none => none
    | some (rs', o', tr) =>
      some (rs', o', .attempt tid .success (rs.stats.deleted + 1) rs.stats.failed :: tr)
  | rs, tid :: rest, .failure m :: oracle =>
    match webInner ⟨rs.i, ⟨rs.stats.deleted, rs.stats.failed + 1, rs.stats.total⟩,
        rs.log⟩ rest oracle with
    | none => none
    | some (rs', o', tr) =>
      some (rs', o', .attempt tid (.failure m) rs.stats.deleted (rs.stats.failed + 1) :: tr)
  | rs, tid :: rest, .throttle reset nowMs :: oracle =>
    match webInner ⟨rs.i - 1, rs.stats, rs.log⟩ rest oracle with
    | none => none
    | some (rs', o', tr) =>
      some (rs', o',
        .attempt tid (.throttle reset nowMs) rs.stats.deleted rs.stats.failed ::
          .rateSleep (rateLimitWaitWeb reset nowMs) :: tr)

/-- Outer `for (let i = 0; i < tweets.length; i += B)` loop of
`processDeletion` (server file lines 107–155) with explicit fuel (`none`
models a run that has not terminated within the fuel).  The batch is
`tweets.slice(i, i + B)` taken at the top of the iteration; the inter-batch
wait fires when `i + B < tweets.length`, read with the CURRENT, possibly
throttle-decremented `i`; then `i += B`. -/
def webOuter : Nat → List String → Nat → Nat → WebRunState → List ApiResult → Option (WebRunState × List Event)
  | 0, _, _, _, _, _ => none
  | fuel + 1, ids, b, d, rs, oracle =>
    if rs.i < (ids.length : Int) then
      match webInner rs (jsSlice rs.i (rs.i + (b : Int)) ids) oracle with
      | none => none
      | some (rs', oracle', tr₁) =>
        match webOuter fuel ids b d { rs' with i := rs'.i + (b : Int) } oracle' with
        | none => none
        | some (rsF, trR) =>
          some (rsF, tr₁ ++
            (if rs'.i + (b : Int) < (ids.length : Int) then [Event.interBatchSleep d] else [])
            ++ trR)
    else some (rs, [])

/-- Model of `processDeletion(tweetIds)` right after `app.post('/api/delete-tweets')`
has set `deletionStats` to zero counters with `total = tweetIds.length`
(server file line 79): the batch loop starting from `i = 0`. -/
def processDeletionRun (fuel : Nat) (tweetIds : List String) (b d : Nat)
    (oracle : List ApiResult) : Option (WebRunState × List Event) :=
  webOuter fuel tweetIds b d ⟨0, ⟨0, 0, tweetIds.length⟩, []⟩ oracle

/-- How one `processDeletion` call ended: the body ran to completion
(including `saveDeletionLog`), or an error was caught by the outer catch. -/
inductive RunCompletion where
  | completed : WebRunState → List Event → RunCompletion
  | aborted : String → RunCompletion
  deriving DecidableEq, Repr

/-- Model of `processDeletion` with its try/catch/finally (server file lines 101–165):
the body is the batch loop followed by `saveDeletionLog()`, modelled as
succeeding iff `saveOk`; the catch swallows any body error; the finally
clause assigns `deletionInProgress = false` on the normal path and on the
error path alike.  The returned Bool is `deletionInProgress` after the call. -/
def processDeletionWithFinally (fuel : Nat) (tweetIds : List String) (b d : Nat)
    (oracle : List ApiResult) (saveOk : Bool) : Option (Bool × RunCompletion) :=
  match processDeletionRun fuel tweetIds b d oracle with
  | none => none
  | some (rs, tr) =>
    if saveOk then some (false, .completed rs tr)
    else some (false, .aborted "saveDeletionLog threw")

/-- Mutable state of one `deleteTweetsInBatches` run in the CLI
(`src/index.js` lines 113–115, 141): `deletedCount`, `failedCount` and the
ids pushed onto `this.deletedTweets`. -/
structure CliRunState where
  deletedCount : Nat
  failedCount : Nat
  deletedTweets : List String
  deriving DecidableEq, Repr

/-- Inner `for (let j = 0; j < batch.length; j++)` loop of
`deleteTweetsInBatches` (`src/index.js` lines 134–179).  On a 429 the code
sleeps for the computed wait and executes `j--; continue`, so the SAME
`batch[j]` is attempted next. -/
def cliInner (batch : List String) : Nat → CliRunState → List ApiResult → Option (CliRunState × List ApiResult × List Event)
  | j, st, [] =>
    if j < batch.length then none else some (st, [], [])
  | j, st, .success :: oracle' =>
    if h : j < batch.length then
      match cliInner batch (j + 1) ⟨st.deletedCount + 1, st.failedCount,
          st.deletedTweets ++ [batch.get ⟨j, h⟩]⟩ oracle' with
      | none => none
      | some (stF, o, tr) =>
        some (stF, o, .attempt (batch.get ⟨j, h⟩) .success
          (st.deletedCount + 1) st.failedCount :: tr)
    else some (st, .success :: oracle', [])
  | j, st, .failure m :: oracle' =>
    if h : j < batch.length then
      match cliInner batch (j + 1) ⟨st.deletedCount, st.failedCount + 1,
          st.deletedTweets⟩ oracle' with
      | none => none
      | some (stF, o, tr) =>
        some (stF, o, .attempt (batch.get ⟨j, h⟩) (.failure m)
          st.deletedCount (st.failedCount + 1) :: tr)
    else some (st, .failure m :: oracle', [])
  | j, st, .throttle reset nowMs :: oracle' =>
    if h : j < batch.length then
      match cliInner batch j st oracle' with
      | none => none
      | some (stF, o, tr) =>
        some (stF, o,
          .attempt (batch.get ⟨j, h⟩) (.throttle reset nowMs) st.deletedCount st.failedCount ::
            .rateSleep (rateLimitWaitCli reset nowMs) :: tr)
    else some (st, .throttle reset nowMs :: oracle', [])

/-- Outer batch loop of `deleteTweetsInBatches` (`src/index.js` lines
119–187) with explicit fuel.  `batch = tweets.slice(i, i + B)` with `i` a
plain `Nat` that is only ever advanced by `i += B`; the inter-batch wait
fires when `i + B < tweets.length`.  A zero batch size loops forever in the
source and here exhausts any fuel. -/
def cliOuter : Nat → List String → Nat → Nat → Nat → CliRunState → List ApiResult → Option (CliRunState × List Event)
  | 0, _, _, _, _, _, _ => none
  | fuel + 1, tweets, b, d, i, st, oracle =>
    if i < tweets.length then
      match cliInner ((tweets.drop i).take b) 0 st oracle with
      | none => none
      | some (st', oracle', tr₁) =>
        let tr₂ : List Event := if i + b < tweets.length then [Event.interBatchSleep d] else []
        match cliOuter fuel tweets b d (i + b) st' oracle' with
        | none => none
        | some (stF, trR) => some (stF, tr₁ ++ tr₂ ++ trR)
    else some (st, [])

/-- Model of `deleteTweetsInBatches(tweets)`: counters start at zero, the loop starts
at `i = 0` (`src/index.js` lines 112–119). -/
def deleteTweetsInBatchesRun (fuel : Nat) (tweets : List String) (b d : Nat)
    (oracle : List ApiResult) : Option (CliRunState × List Event) :=
  cliOuter fuel tweets b d 0 ⟨0, 0, []⟩ oracle

/-- Server-level state shared by the endpoint handlers: `deleter !== null`,
`deletionInProgress`, and `deletionStats` (server file lines 13–15). -/
structure ServerState where
  initialized : Bool
  deletionInProgress : Bool
  stats : Stats
  deriving DecidableEq, Repr

/-- Responses of `app.post('/api/delete-tweets')`. -/
inductive StartResp where
  | notInitialized : StartResp
  | alreadyInProgress : StartResp
  | noIds : StartResp
  | started : Nat → StartResp
  deriving DecidableEq, Repr

/-- The synchronous part of `app.post('/api/delete-tweets')` (server file
lines 63–90): the guards in source order, then the mutation of
`deletionInProgress` and `deletionStats` performed before `processDeletion`
is started in the background.  `none` for `tweetIds` models a missing or
non-array request body field. -/
def postDeleteTweets (st : ServerState) (tweetIds : Option (List String)) :
    StartResp × ServerState :=
  if st.initialized = false then (.notInitialized, st)
  else if st.deletionInProgress then (.alreadyInProgress, st)
  else
    match tweetIds with
    | none => (.noIds, st)
    | some ids =>
      if ids.length = 0 then (.noIds, st)
      else (.started ids.length,
        { st with deletionInProgress := true, stats := ⟨0, 0, ids.length⟩ })

/-- JavaScript `Math.round` on an exact rational: round half toward positive
infinity. -/
def jsRound (q : ℚ) : Int := ⌊q + 1 / 2⌋

/-- The `progress` field of `app.get('/api/deletion-progress')` (server file
lines 96–97):
`total > 0 ? Math.round(((deleted + failed) / total) * 100) : 0`,
with JavaScript numbers idealized as exact rationals. -/
def progressPercent (s : Stats) : Int :=
  if 0 < s.total then jsRound (((s.deleted : ℚ) + (s.failed : ℚ)) / (s.total : ℚ) * 100)
  else 0

/-- A fetched tweet as used by the filtering logic: only the text matters. -/
structure Tweet where
  id : String
  text : String
  deriving DecidableEq, Repr

/-- The reply/retweet filter of `fetchUserTweets` (`src/index.js` lines
51–53): keep tweets whose text starts neither with "@" nor with "RT @". -/
def isOriginalTweet (t : Tweet) : Bool :=
  !(t.text.startsWith "@") && !(t.text.startsWith "RT @")

/-- Constant `this.maxDeletionsPerDay` (`src/index.js` line 21). -/
def maxDeletionsPerDay : Nat := 15

/-- The pure post-processing of `fetchUserTweets` (`src/index.js` lines
47–63) applied to the list returned by the timeline call: filter out replies
and retweets, then `slice(0, this.maxDeletionsPerDay)`. -/
def fetchUserTweetsPost (allTweets : List Tweet) : List Tweet :=
  (allTweets.filter isOriginalTweet).take maxDeletionsPerDay

/-- The deletion attempts of a trace, in order, with their outcomes. -/
def attemptsOf : List Event → List (String × ApiResult)
  | [] => []
  | .attempt tid r _ _ :: tr => (tid, r) :: attemptsOf tr
  | .rateSleep _ :: tr => attemptsOf tr
  | .interBatchSleep _ :: tr => attemptsOf tr

/-- The (deleted, failed) counter snapshots of a trace, one per attempt. -/
def snapshotsOf : List Event → List (Nat × Nat)
  | [] => []
  | .attempt _ _ dAfter fAfter :: tr => (dAfter, fAfter) :: snapshotsOf tr
  | .rateSleep _ :: tr => snapshotsOf tr
  | .interBatchSleep _ :: tr => snapshotsOf tr

/-- Ids of the successful attempts of a trace, in order. -/
def successIdsOf : List Event → List String
  | [] => []
  | .attempt tid .success _ _ :: tr => tid :: successIdsOf tr
  | .attempt _ (.failure _) _ _ :: tr => successIdsOf tr
  | .attempt _ (.throttle _ _) _ _ :: tr => successIdsOf tr
  | .rateSleep _ :: tr => successIdsOf tr
  | .interBatchSleep _ :: tr => successIdsOf tr

/-- Number of inter-batch sleeps in a trace. -/
def countInterBatch (tr : List Event) : Nat :=
  (tr.filter fun e => match e with | .interBatchSleep _ => true | _ => false).length

theorem ceilDiv_eq_rat_ceil (a : Int) (n : Nat) :
    ceilDiv a (n : Int) = ⌈(a : ℚ) / (n : ℚ)⌉ := by
  have h1 : -((a : ℚ) / (n : ℚ)) = ((-a : ℤ) : ℚ) / ((n : ℕ) : ℚ) := by push_cast; ring
  have h2 : ⌊-((a : ℚ) / (n : ℚ))⌋ = (-a) / (n : ℤ) := by
    rw [h1, Rat.floor_intCast_div_natCast]
  have h3 : ⌈(a : ℚ) / (n : ℚ)⌉ = -⌊-((a : ℚ) / (n : ℚ))⌋ := by
    rw [Int.floor_neg]; simp
  rw [h3, h2]; rfl

/-- C5: with a reset epoch, both schedulers wait
ceil((resetEpoch − now) / 60) minutes plus a constant buffer that lies
between 1 and 5 minutes (5 in the CLI, 1 in the web server); without one,
both wait a fixed fallback between 15 minutes and 24 hours (24 h in the CLI,
15 min in the web server).  `nowMs` is the wall clock in milliseconds, so
"now" in seconds is `nowMs / 1000`. -/
theorem rateLimitWait_spec (reset nowMs : Int) :
    (∃ buffer : Int, 1 ≤ buffer ∧ buffer ≤ 5 ∧
      rateLimitWaitCli (some reset) nowMs
        = ⌈((reset : ℚ) - (nowMs : ℚ) / 1000) / 60⌉ + buffer) ∧
    (∃ buffer : Int, 1 ≤ buffer ∧ buffer ≤ 5 ∧
      rateLimitWaitWeb (some reset) nowMs
        = ⌈((reset : ℚ) - (nowMs : ℚ) / 1000) / 60⌉ + buffer) ∧
    (15 ≤ rateLimitWaitCli none nowMs ∧ rateLimitWaitCli none nowMs ≤ 24 * 60) ∧
    (15 ≤ rateLimitWaitWeb none nowMs ∧ rateLimitWaitWeb none nowMs ≤ 24 * 60) := by
  have key : ceilDiv (reset * 1000 - nowMs) 60000
      = ⌈((reset : ℚ) - (nowMs : ℚ) / 1000) / 60⌉ := by
    have h60000 : (60000 : Int) = ((60000 : ℕ) : Int) := by norm_num
    rw [h60000, ceilDiv_eq_rat_ceil]
    congr 1
    push_cast
    ring
  refine ⟨⟨5, by norm_num, by norm_num, ?_⟩, ⟨1, by norm_num, by norm_num, ?_⟩,
    ⟨by norm_num [rateLimitWaitCli], by norm_num [rateLimitWaitCli]⟩,
    ⟨by norm_num [rateLimitWaitWeb], by norm_num [rateLimitWaitWeb]⟩⟩
  · rw [rateLimitWaitCli, key]
  · rw [rateLimitWaitWeb, key]

/-- C7: a `POST /api/delete-tweets` issued while a run is active is rejected
with the already-in-progress error, and the server state (counters and the
run-active flag included) is returned unchanged. -/
theorem postDeleteTweets_rejects_when_in_progress (st : ServerState)
    (tweetIds : Option (List String)) (hinit : st.initialized = true)
    (hrun : st.deletionInProgress = true) :
    postDeleteTweets st tweetIds = (.alreadyInProgress, st) := by
  simp [postDeleteTweets, hinit, hrun]

theorem postDeleteTweets_rejects_witness :
    postDeleteTweets ⟨true, true, ⟨3, 1, 7⟩⟩ (some ["x"]) =
      (.alreadyInProgress, ⟨true, true, ⟨3, 1, 7⟩⟩) :=
  postDeleteTweets_rejects_when_in_progress ⟨true, true, ⟨3, 1, 7⟩⟩ (some ["x"]) rfl rfl

/-- C8: the reported percent-complete equals
round(100 · (deleted + failed) / total) when total > 0, and 0 when
total = 0 (Mathlib's `round` rounds half up, exactly like `Math.round`). -/
theorem progressPercent_eq_round (s : Stats) :
    (0 < s.total →
      progressPercent s = round ((100 * ((s.deleted : ℚ) + (s.failed : ℚ))) / (s.total : ℚ))) ∧
    (s.total = 0 → progressPercent s = 0) := by
  constructor
  · intro h
    rw [progressPercent, if_pos h, jsRound, round_eq]
    congr 1
    ring
  · intro h
    rw [progressPercent, if_neg (by omega)]

theorem progressPercent_eq_round_witness :
    0 < (8 : Nat) ∧
      progressPercent ⟨1, 1, 8⟩
        = round ((100 * (((1 : Nat) : ℚ) + ((1 : Nat) : ℚ))) / (((8 : Nat)) : ℚ)) :=
  ⟨by norm_num, (progressPercent_eq_round ⟨1, 1, 8⟩).1 (by norm_num)⟩

/-- C9: the fetch post-processing returns at most `maxDeletionsPerDay = 15`
tweets, none of which starts with "@" or "RT @"; and because the filter runs
before the cap, whenever at most 15 originals survive the filter, the cap
drops nothing. -/
theorem fetchUserTweetsPost_spec (allTweets : List Tweet) :
    (fetchUserTweetsPost allTweets).length ≤ maxDeletionsPerDay ∧
    (∀ t ∈ fetchUserTweetsPost allTweets,
        t.text.startsWith "@" = false ∧ t.text.startsWith "RT @" = false) ∧
    ((allTweets.filter isOriginalTweet).length ≤ maxDeletionsPerDay →
        fetchUserTweetsPost allTweets = allTweets.filter isOriginalTweet) := by
  refine ⟨List.length_take_le _ _, ?_, ?_⟩
  · intro t ht
    have h1 : t ∈ allTweets.filter isOriginalTweet := List.mem_of_mem_take ht
    have h2 : isOriginalTweet t = true := List.of_mem_filter h1
    rw [isOriginalTweet, Bool.and_eq_true, Bool.not_eq_true', Bool.not_eq_true'] at h2
    exact h2
  · intro h
    exact List.take_of_length_le h

theorem fetchUserTweetsPost_spec_witness :
    (List.filter isOriginalTweet []).length ≤ maxDeletionsPerDay ∧
      fetchUserTweetsPost [] = List.filter isOriginalTweet [] :=
  ⟨by simp, (fetchUserTweetsPost_spec []).2.2 (by simp)⟩

/-- C10: whenever `processDeletion` terminates — whether the body completed
or the outer catch swallowed an error (here: a failing `saveDeletionLog`) —
the finally clause has set `deletionInProgress` to false. -/
theorem processDeletion_terminates_idle (fuel : Nat) (tweetIds : List String) (b d : Nat)
    (oracle : List ApiResult) (saveOk : Bool)
    (h : (processDeletionWithFinally fuel tweetIds b d oracle saveOk).isSome = true) :
    (processDeletionWithFinally fuel tweetIds b d oracle saveOk).map Prod.fst
      = some false := by
  rw [processDeletionWithFinally] at h ⊢
  cases hrun : processDeletionRun fuel tweetIds b d oracle with
  | none => rw [hrun] at h; simp at h
  | some p =>
    obtain ⟨rs, tr⟩ := p
    cases saveOk <;> simp

theorem processDeletion_terminates_idle_witness :
    (processDeletionWithFinally 10 ["a"] 5 90 [ApiResult.failure "x"] false).map Prod.fst
      = some false :=
  processDeletion_terminates_idle 10 ["a"] 5 90 [ApiResult.failure "x"] false (by rfl)

/-- C1 (code bug): in the web scheduler `processDeletion`, a throttling
signal does NOT lead to a retry of the same item.  Concretely, with items
["a", "b"], batch size 5, and outcomes [429 without reset, success]: the
attempt that follows the throttled attempt on "a" targets "b", and "a" is
never attempted again (the attempt list of the whole run is exactly those
two attempts).  The `i--` at server file line 142 decrements the OUTER batch
index while `continue` advances the inner for-of cursor, contradicting the
adjacent comment "Retry this tweet".  Consistent with the rest of the claim,
the throttle is not counted: the final stats are deleted = 1, failed = 0 of
total 2, and the wait before the next attempt is the computed 15 minutes. -/
theorem processDeletion_throttle_skips_item :
    (processDeletionRun 10 ["a", "b"] 5 90 [.throttle none 0, .success]).map
        (fun p => (attemptsOf p.2, p.1.stats, p.1.log)) =
      some ([("a", ApiResult.throttle none 0), ("b", ApiResult.success)],
        ⟨1, 0, 2⟩, ["b"]) := rfl

/-- C3 counterexample: a completed run in which the single item fails
terminally ends with an EMPTY persisted log (`deleter.deletedTweets`, the
array written by `saveDeletionLog`), although the run has one terminal
`Failed` outcome — so the log does not contain a record for every terminal
outcome. -/
theorem processDeletion_failed_outcome_missing_from_log :
    (processDeletionRun 10 ["a"] 5 90 [.failure "forbidden"]).map
        (fun p => (p.1.log, p.1.stats.failed, attemptsOf p.2)) =
      some ([], 1, [("a", ApiResult.failure "forbidden")]) := rfl

theorem chunkListFuel_nil {α : Type} (fuel b : Nat) :
    chunkListFuel fuel b ([] : List α) = [] := by
  cases fuel <;> rfl

theorem chunkListFuel_eq_nil_iff {α : Type} (fuel b : Nat) (l : List α) :
    chunkListFuel fuel b l = [] ↔ fuel = 0 ∨ l = [] := by
  cases fuel with
  | zero => simp [chunkListFuel]
  | succ fuel =>
    cases l with
    | nil => simp [chunkListFuel]
    | cons a t => simp [chunkListFuel]

theorem chunkArith (n b : Nat) (hb : 0 < b) (hn : 0 < n) :
    (n - b + b - 1) / b + 1 = (n + b - 1) / b := by
  rcases le_or_lt n b with hc | hc
  · have h1 : n - b + b - 1 = b - 1 := by omega
    rw [h1, Nat.div_eq_of_lt (by omega)]
    have h3 : n + b - 1 = (n - 1) + b := by omega
    rw [h3, Nat.add_div_right _ hb, Nat.div_eq_of_lt (by omega)]
  · have h3 : n - b + b - 1 = n - 1 := by omega
    rw [h3]
    have h4 : n + b - 1 = (n - 1) + b := by omega
    rw [h4, Nat.add_div_right _ hb]

theorem chunkListFuel_length {α : Type} (b : Nat) (hb : 0 < b) :
    ∀ (fuel : Nat) (l : List α), l.length ≤ fuel →
      (chunkListFuel fuel b l).length = (l.length + b - 1) / b := by
  intro fuel
  induction fuel with
  | zero =>
    intro l hl
    have hnil : l = [] := List.eq_nil_of_length_eq_zero (Nat.le_zero.mp hl)
    subst hnil
    rw [chunkListFuel_nil]
    simp [Nat.div_eq_of_lt (show b - 1 < b by omega)]
  | succ fuel ih =>
    intro l hl
    cases l with
    | nil =>
      rw [chunkListFuel_nil]
      simp [Nat.div_eq_of_lt (show b - 1 < b by omega)]
    | cons a t =>
      rw [chunkListFuel]
      simp only [List.isEmpty_cons, if_neg Bool.false_ne_true, List.length_cons]
      rw [ih ((a :: t).drop b) (by rw [List.length_drop]; simp only [List.length_cons] at hl ⊢; omega)]
      rw [List.length_drop]
      exact chunkArith (a :: t).length b hb (by simp)

theorem chunkListFuel_join {α : Type} (b : Nat) (hb : 0 < b) :
    ∀ (fuel : Nat) (l : List α), l.length ≤ fuel → (chunkListFuel fuel b l).flatten = l := by
  intro fuel
  induction fuel with
  | zero =>
    intro l hl
    have hnil : l = [] := List.eq_nil_of_length_eq_zero (Nat.le_zero.mp hl)
    subst hnil
    rw [chunkListFuel_nil]; rfl
  | succ fuel ih =>
    intro l hl
    cases l with
    | nil => rw [chunkListFuel_nil]; rfl
    | cons a t =>
      rw [chunkListFuel]
      simp only [List.isEmpty_cons, if_neg Bool.false_ne_true, List.flatten_cons]
      rw [ih ((a :: t).drop b) (by rw [List.length_drop]; simp only [List.length_cons] at hl ⊢; omega)]
      exact List.take_append_drop b (a :: t)

theorem chunkListFuel_dropLast {α : Type} (b : Nat) (hb : 0 < b) :
    ∀ (fuel : Nat) (l : List α), l.length ≤ fuel →
      ∀ c ∈ (chunkListFuel fuel b l).dropLast, c.length = b := by
  intro fuel
  induction fuel with
  | zero =>
    intro l hl c hc
    have hnil : l = [] := List.eq_nil_of_length_eq_zero (Nat.le_zero.mp hl)
    subst hnil
    rw [chunkListFuel_nil] at hc
    simp at hc
  | succ fuel ih =>
    intro l hl c hc
    cases l with
    | nil => rw [chunkListFuel_nil] at hc; simp at hc
    | cons a t =>
      rw [chunkListFuel] at hc
      simp only [List.isEmpty_cons, if_neg Bool.false_ne_true] at hc
      by_cases hrest : chunkListFuel fuel b ((a :: t).drop b) = []
      · rw [hrest] at hc
        simp at hc
      · rw [List.dropLast_cons_of_ne_nil hrest] at hc
        rcases List.mem_cons.mp hc with rfl | hmem
        · have hd : (a :: t).drop b ≠ [] := by
            intro hnil
            rw [hnil, chunkListFuel_nil] at hrest
            exact hrest rfl
          have hlen : b < (a :: t).length := by
            by_contra hge
            push_neg at hge
            exact hd (List.drop_eq_nil_of_le hge)
          rw [List.length_take]
          omega
        · exact ih ((a :: t).drop b)
            (by rw [List.length_drop]; simp only [List.length_cons] at hl ⊢; omega) c hmem

theorem chunkListFuel_getLast {α : Type} (b : Nat) (hb : 0 < b) :
    ∀ (fuel : Nat) (l : List α), l.length ≤ fuel → l ≠ [] →
      ∀ c, (chunkListFuel fuel b l).getLast? = some c →
        c.length = if l.length % b = 0 then b else l.length % b := by
  intro fuel
  induction fuel with
  | zero =>
    intro l hl hne
    exact absurd (List.eq_nil_of_length_eq_zero (Nat.le_zero.mp hl)) hne
  | succ fuel ih =>
    intro l hl hne c hc
    cases l with
    | nil => exact absurd rfl hne
    | cons a t =>
      rw [chunkListFuel] at hc
      simp only [List.isEmpty_cons, if_neg Bool.false_ne_true] at hc
      by_cases hrest : chunkListFuel fuel b ((a :: t).drop b) = []
      · rw [hrest] at hc
        simp only [List.getLast?_singleton, Option.some_inj] at hc
        have hd : (a :: t).drop b = [] := by
          rcases (chunkListFuel_eq_nil_iff fuel b ((a :: t).drop b)).mp hrest with hf | hd
          · subst hf
            have : (a :: t).length ≤ 1 := hl
            have hdl : (a :: t).drop b = [] := by
              apply List.drop_eq_nil_of_le
              omega
            exact hdl
          · exact hd
        have hlen : (a :: t).length ≤ b := by
          by_contra hgt
          push_neg at hgt
          have hld : ((a :: t).drop b).length = (a :: t).length - b := List.length_drop _ _
          rw [hd] at hld
          simp only [List.length_nil, List.length_cons] at hld hgt
          omega
        subst hc
        rw [List.length_take]
        rcases eq_or_lt_of_le hlen with heq | hlt
        · rw [← heq]
          simp [Nat.mod_self]
        · rw [if_neg, Nat.mod_eq_of_lt hlt]
          · omega
          · rw [Nat.mod_eq_of_lt hlt]
            simp
      · have hd : (a :: t).drop b ≠ [] := by
          intro hnil
          rw [hnil, chunkListFuel_nil] at hrest
          exact hrest rfl
        have hblen : b < (a :: t).length := by
          by_contra hge
          push_neg at hge
          exact hd (List.drop_eq_nil_of_le hge)
        have hc2 : (chunkListFuel fuel b ((a :: t).drop b)).getLast? = some c := by
          rcases hlast : chunkListFuel fuel b ((a :: t).drop b) with _ | ⟨r, rs⟩
          · exact absurd hlast hrest
          · rw [hlast] at hc
            rw [List.getLast?_cons_cons] at hc
            exact hc
        have hrec := ih ((a :: t).drop b)
          (by rw [List.length_drop]; simp only [List.length_cons] at hl ⊢; omega) hd c hc2
        rw [List.length_drop] at hrec
        have hmod : ((a :: t).length - b) % b = (a :: t).length % b := by
          conv_rhs => rw [← Nat.sub_add_cancel (le_of_lt hblen)]
          rw [Nat.add_mod_right]
        rw [hrec, hmod]

/-- C4: for a batch size B > 0 the slicing loop
`for (let i = 0; i < N; i += B) slice(i, i + B)` partitions the list into
exactly ceil(N/B) contiguous chunks whose in-order concatenation is the
original list; every chunk except the last has exactly B items and the last
has N mod B items (or B when B divides N). -/
theorem chunkList_spec {α : Type} (l : List α) (b : Nat) (hb : 0 < b) :
    (chunkList b l).length = (l.length + b - 1) / b ∧
    (chunkList b l).flatten = l ∧
    (∀ c ∈ (chunkList b l).dropLast, c.length = b) ∧
    (∀ c, (chunkList b l).getLast? = some c →
        c.length = if l.length % b = 0 then b else l.length % b) := by
  rw [chunkList, if_neg (by omega)]
  refine ⟨chunkListFuel_length b hb l.length l le_rfl,
    chunkListFuel_join b hb l.length l le_rfl,
    chunkListFuel_dropLast b hb l.length l le_rfl, ?_⟩
  intro c hc
  cases l with
  | nil => rw [chunkListFuel_nil] at hc; simp at hc
  | cons a t =>
    exact chunkListFuel_getLast b hb (a :: t).length (a :: t) le_rfl (by simp) c hc

theorem chunkList_spec_witness :
    0 < 5 ∧
      ((chunkList 5 ([0, 1, 2, 3, 4, 5, 6, 7, 8, 9, 10, 11] : List Nat)).length
          = (([0, 1, 2, 3, 4, 5, 6, 7, 8, 9, 10, 11] : List Nat).length + 5 - 1) / 5 ∧
        (chunkList 5 ([0, 1, 2, 3, 4, 5, 6, 7, 8, 9, 10, 11] : List Nat)).flatten
          = [0, 1, 2, 3, 4, 5, 6, 7, 8, 9, 10, 11] ∧
        (∀ c ∈ (chunkList 5 ([0, 1, 2, 3, 4, 5, 6, 7, 8, 9, 10, 11] : List Nat)).dropLast,
            c.length = 5) ∧
        (∀ c, (chunkList 5 ([0, 1, 2, 3, 4, 5, 6, 7, 8, 9, 10, 11] : List Nat)).getLast?
              = some c →
            c.length
              = if ([0, 1, 2, 3, 4, 5, 6, 7, 8, 9, 10, 11] : List Nat).length % 5 = 0
                then 5 else ([0, 1, 2, 3, 4, 5, 6, 7, 8, 9, 10, 11] : List Nat).length % 5)) :=
  ⟨by norm_num, chunkList_spec [0, 1, 2, 3, 4, 5, 6, 7, 8, 9, 10, 11] 5 (by norm_num)⟩

theorem successIdsOf_append (x y : List Event) :
    successIdsOf (x ++ y) = successIdsOf x ++ successIdsOf y := by
  induction x with
  | nil => rfl
  | cons e x ih =>
    cases e with
    | attempt tid r dA fA => cases r <;> simp [successIdsOf, ih]
    | rateSleep m => simp [successIdsOf, ih]
    | interBatchSleep m => simp [successIdsOf, ih]

theorem snapshotsOf_append (x y : List Event) :
    snapshotsOf (x ++ y) = snapshotsOf x ++ snapshotsOf y := by
  induction x with
  | nil => rfl
  | cons e x ih =>
    cases e with
    | attempt tid r dA fA => simp [snapshotsOf, ih]
    | rateSleep m => simp [snapshotsOf, ih]
    | interBatchSleep m => simp [snapshotsOf, ih]

theorem attemptsOf_append (x y : List Event) :
    attemptsOf (x ++ y) = attemptsOf x ++ attemptsOf y := by
  induction x with
  | nil => rfl
  | cons e x ih =>
    cases e with
    | attempt tid r dA fA => simp [attemptsOf, ih]
    | rateSleep m => simp [attemptsOf, ih]
    | interBatchSleep m => simp [attemptsOf, ih]

theorem countInterBatch_append (x y : List Event) :
    countInterBatch (x ++ y) = countInterBatch x + countInterBatch y := by
  rw [countInterBatch, countInterBatch, countInterBatch, List.filter_append,
    List.length_append]

theorem jsSlice_length {α : Type} (i j : Int) (l : List α)
    (hi : 0 ≤ i) (hij : i ≤ j) (hin : i ≤ (l.length : Int)) :
    ((jsSlice i j l).length : Int) = min j (l.length : Int) - i := by
  have hj : 0 ≤ j := le_trans hi hij
  simp only [jsSlice, if_neg (not_lt.mpr hi), if_neg (not_lt.mpr hj),
    List.length_drop, List.length_take]
  omega

/-- Per-batch bookkeeping of the web inner loop: the total is untouched, the
outer index never increases, the counters never decrease, each batch element
is accounted for exactly once (as a counted terminal outcome or as an `i--`),
the log grows by exactly the successful ids of the batch trace in order, and
every counter snapshot in the batch trace is bounded by the entry counters
plus the batch length. -/
theorem webInner_spec (batch : List String) :
    ∀ (rs : WebRunState) (oracle : List ApiResult) (rs' : WebRunState)
      (o' : List ApiResult) (tr : List Event),
      webInner rs batch oracle = some (rs', o', tr) →
      rs'.stats.total = rs.stats.total ∧
      rs'.i ≤ rs.i ∧
      rs.stats.deleted + rs.stats.failed ≤ rs'.stats.deleted + rs'.stats.failed ∧
      ((rs'.stats.deleted : Int) + (rs'.stats.failed : Int) + (rs.i - rs'.i)
          = (rs.stats.deleted : Int) + (rs.stats.failed : Int) + batch.length) ∧
      rs'.log = rs.log ++ successIdsOf tr ∧
      (∀ p ∈ snapshotsOf tr,
          p.1 + p.2 ≤ rs.stats.deleted + rs.stats.failed + batch.length) := by
  induction batch with
  | nil =>
    intro rs oracle rs' o' tr h
    rw [webInner] at h
    simp only [Option.some.injEq, Prod.mk.injEq] at h
    obtain ⟨rfl, rfl, rfl⟩ := h
    simp [successIdsOf, snapshotsOf]
  | cons tid rest ih =>
    intro rs oracle rs' o' tr h
    cases oracle with
    | nil => rw [webInner] at h; exact absurd h (by simp)
    | cons r oracle =>
      cases r with
      | success =>
        rw [webInner] at h
        cases hrec : webInner ⟨rs.i, ⟨rs.stats.deleted + 1, rs.stats.failed, rs.stats.total⟩,
            rs.log ++ [tid]⟩ rest oracle with
        | none => rw [hrec] at h; exact absurd h (by simp)
        | some trip =>
          obtain ⟨rs₁, o₁, tr₁⟩ := trip
          rw [hrec] at h
          simp only [Option.some.injEq, Prod.mk.injEq] at h
          obtain ⟨rfl, rfl, rfl⟩ := h
          obtain ⟨e1, e2, e3, e4, e5, e6⟩ := ih _ _ _ _ _ hrec
          simp only [List.length_cons] at e4 ⊢
          refine ⟨by simpa using e1, by simpa using e2, by simp at e3 ⊢; omega,
            by simp at e4 ⊢; omega, ?_, ?_⟩
          · rw [e5]
            simp [successIdsOf]
          · intro p hp
            rw [show snapshotsOf (Event.attempt tid ApiResult.success
                (rs.stats.deleted + 1) rs.stats.failed :: tr₁)
              = (rs.stats.deleted + 1, rs.stats.failed) :: snapshotsOf tr₁ from rfl] at hp
            rcases List.mem_cons.mp hp with rfl | hp
            · simp
              omega
            · have := e6 p hp
              simp at this
              omega
      | failure m =>
        rw [webInner] at h
        cases hrec : webInner ⟨rs.i, ⟨rs.stats.deleted, rs.stats.failed + 1, rs.stats.total⟩,
            rs.log⟩ rest oracle with
        | none => rw [hrec] at h; exact absurd h (by simp)
        | some trip =>
          obtain ⟨rs₁, o₁, tr₁⟩ := trip
          rw [hrec] at h
          simp only [Option.some.injEq, Prod.mk.injEq] at h
          obtain ⟨rfl, rfl, rfl⟩ := h
          obtain ⟨e1, e2, e3, e4, e5, e6⟩ := ih _ _ _ _ _ hrec
          simp only [List.length_cons] at e4 ⊢
          refine ⟨by simpa using e1, by simpa using e2, by simp at e3 ⊢; omega,
            by simp at e4 ⊢; omega, ?_, ?_⟩
          · rw [e5]
            simp [successIdsOf]
          · intro p hp
            rw [show snapshotsOf (Event.attempt tid (ApiResult.failure m)
                rs.stats.deleted (rs.stats.failed + 1) :: tr₁)
              = (rs.stats.deleted, rs.stats.failed + 1) :: snapshotsOf tr₁ from rfl] at hp
            rcases List.mem_cons.mp hp with rfl | hp
            · simp
              omega
            · have := e6 p hp
              simp at this
              omega
      | throttle reset nowMs =>
        rw [webInner] at h
        cases hrec : webInner ⟨rs.i - 1, rs.stats, rs.log⟩ rest oracle with
        | none => rw [hrec] at h; exact absurd h (by simp)
        | some trip =>
          obtain ⟨rs₁, o₁, tr₁⟩ := trip
          rw [hrec] at h
          simp only [Option.some.injEq, Prod.mk.injEq] at h
          obtain ⟨rfl, rfl, rfl⟩ := h
          obtain ⟨e1, e2, e3, e4, e5, e6⟩ := ih _ _ _ _ _ hrec
          simp only [List.length_cons] at e4 ⊢
          refine ⟨by simpa using e1, by simp at e2 ⊢; omega, by simpa using e3,
            by simp at e4 ⊢; omega, ?_, ?_⟩
          · rw [e5]
            simp [successIdsOf]
          · intro p hp
            rw [show snapshotsOf (Event.attempt tid (ApiResult.throttle reset nowMs)
                rs.stats.deleted rs.stats.failed ::
                  Event.rateSleep (rateLimitWaitWeb reset nowMs) :: tr₁)
              = (rs.stats.deleted, rs.stats.failed) :: snapshotsOf tr₁ from rfl] at hp
            rcases List.mem_cons.mp hp with rfl | hp
            · simp
            · have := e6 p hp
              simp at this
              omega

/-- Run-level bookkeeping of the web outer loop, under the loop invariant
`0 ≤ i`, `deleted + failed ≤ i`, `deleted + failed ≤ N`: on every completed
run the total is untouched, the final and every intermediate counter
snapshot sums to at most the number of submitted ids, and the log grows by
exactly the successful ids of the trace in order. -/
theorem webOuter_spec :
    ∀ (fuel : Nat) (ids : List String) (b d : Nat) (rs : WebRunState)
      (oracle : List ApiResult) (rsF : WebRunState) (tr : List Event),
      webOuter fuel ids b d rs oracle = some (rsF, tr) →
      0 ≤ rs.i →
      ((rs.stats.deleted : Int) + (rs.stats.failed : Int) ≤ rs.i) →
      rs.stats.deleted + rs.stats.failed ≤ ids.length →
      rsF.stats.total = rs.stats.total ∧
      rsF.stats.deleted + rsF.stats.failed ≤ ids.length ∧
      rsF.log = rs.log ++ successIdsOf tr ∧
      (∀ p ∈ snapshotsOf tr, p.1 + p.2 ≤ ids.length) := by
  intro fuel
  induction fuel with
  | zero =>
    intro ids b d rs oracle rsF tr h
    rw [webOuter] at h
    exact absurd h (by simp)
  | succ fuel ih =>
    intro ids b d rs oracle rsF tr h hi hsi hsn
    rw [webOuter] at h
    by_cases hcond : rs.i < (ids.length : Int)
    · rw [if_pos hcond] at h
      cases hrec : webInner rs (jsSlice rs.i (rs.i + (b : Int)) ids) oracle with
      | none => rw [hrec] at h; exact absurd h (by simp)
      | some trip =>
        obtain ⟨rs₁, o₁, tr₁⟩ := trip
        rw [hrec] at h
        dsimp only at h
        cases hrec2 : webOuter fuel ids b d ⟨rs₁.i + (b : Int), rs₁.stats, rs₁.log⟩ o₁ with
        | none =>
          rw [hrec2] at h
          exact absurd h (by simp)
        | some pF =>
          obtain ⟨rsF', trR⟩ := pF
          rw [hrec2] at h
          simp only [Option.some.injEq, Prod.mk.injEq] at h
          obtain ⟨rfl, rfl⟩ := h
          have hlen := jsSlice_length rs.i (rs.i + (b : Int)) ids hi (by omega)
            (le_of_lt hcond)
          obtain ⟨e1, e2, e3, e4, e5, e6⟩ := webInner_spec _ _ _ _ _ _ hrec
          have hrecI : (0 : Int) ≤ rs₁.i + (b : Int) := by omega
          have hrecS : ((rs₁.stats.deleted : Int) + (rs₁.stats.failed : Int)
              ≤ rs₁.i + (b : Int)) := by omega
          have hrecN : rs₁.stats.deleted + rs₁.stats.failed ≤ ids.length := by omega
          obtain ⟨f1, f2, f3, f4⟩ := ih ids b d ⟨rs₁.i + (b : Int), rs₁.stats, rs₁.log⟩
            o₁ rsF' trR hrec2 hrecI hrecS hrecN
          refine ⟨by rw [f1]; simpa using e1, f2, ?_, ?_⟩
          · rw [successIdsOf_append, successIdsOf_append]
            have hmid : successIdsOf
                (if rs₁.i + (b : Int) < (ids.length : Int)
                  then [Event.interBatchSleep d] else []) = [] := by
              by_cases hib : rs₁.i + (b : Int) < (ids.length : Int) <;>
                simp [hib, successIdsOf]
            rw [hmid]
            simp only [List.append_nil]
            rw [f3]
            dsimp only
            rw [e5]
            simp [List.append_assoc]
          · intro p hp
            rw [snapshotsOf_append, snapshotsOf_append] at hp
            have hmid : snapshotsOf
                (if rs₁.i + (b : Int) < (ids.length : Int)
                  then [Event.interBatchSleep d] else []) = [] := by
              by_cases hib : rs₁.i + (b : Int) < (ids.length : Int) <;>
                simp [hib, snapshotsOf]
            rw [hmid] at hp
            simp only [List.append_nil, List.mem_append] at hp
            rcases hp with hp | hp
            · have := e6 p hp
              omega
            · exact f4 p hp
    · rw [if_neg hcond] at h
      simp only [Option.some.injEq, Prod.mk.injEq] at h
      obtain ⟨rfl, rfl⟩ := h
      exact ⟨rfl, hsn, by simp [successIdsOf], by simp [snapshotsOf]⟩

/-- C2: on every completed run over a submitted id list, the final counters
and every per-attempt counter snapshot of the trace satisfy
deleted + failed ≤ total, where total is the length of the submitted list,
fixed at run start and never modified afterwards.  This holds for every
batch size, delay, and sequence of attempt outcomes — including runs in
which the 429 handler has decremented the outer index. -/
theorem processDeletion_progress_invariant (fuel : Nat) (tweetIds : List String)
    (b d : Nat) (oracle : List ApiResult) (rsF : WebRunState) (tr : List Event)
    (h : processDeletionRun fuel tweetIds b d oracle = some (rsF, tr)) :
    rsF.stats.total = tweetIds.length ∧
    rsF.stats.deleted + rsF.stats.failed ≤ tweetIds.length ∧
    (∀ p ∈ snapshotsOf tr, p.1 + p.2 ≤ tweetIds.length) := by
  rw [processDeletionRun] at h
  obtain ⟨f1, f2, f3, f4⟩ := webOuter_spec fuel tweetIds b d
    ⟨0, ⟨0, 0, tweetIds.length⟩, []⟩ oracle rsF tr h (by norm_num) (by norm_num) (by simp)
  exact ⟨by simpa using f1, f2, f4⟩

theorem processDeletion_progress_invariant_witness :
    (⟨5, ⟨2, 1, 3⟩, ["a", "c"]⟩ : WebRunState).stats.total
        = (["a", "b", "c"] : List String).length ∧
      (⟨5, ⟨2, 1, 3⟩, ["a", "c"]⟩ : WebRunState).stats.deleted
          + (⟨5, ⟨2, 1, 3⟩, ["a", "c"]⟩ : WebRunState).stats.failed
        ≤ (["a", "b", "c"] : List String).length ∧
      (∀ p ∈ snapshotsOf [Event.attempt "a" .success 1 0,
          Event.attempt "b" (.failure "x") 1 1, Event.attempt "c" .success 2 1],
        p.1 + p.2 ≤ (["a", "b", "c"] : List String).length) :=
  processDeletion_progress_invariant 10 ["a", "b", "c"] 5 90
    [.success, .failure "x", .success] ⟨5, ⟨2, 1, 3⟩, ["a", "c"]⟩
    [Event.attempt "a" .success 1 0, Event.attempt "b" (.failure "x") 1 1,
      Event.attempt "c" .success 2 1] rfl

/-- C3 (amended): on every completed run the persisted log
(`deleter.deletedTweets`, the array `saveDeletionLog` writes out) contains
exactly one record per SUCCESSFUL deletion attempt, in attempt order;
terminal failures are counted but never recorded in the log. -/
theorem processDeletion_log_is_successes_in_order (fuel : Nat) (tweetIds : List String)
    (b d : Nat) (oracle : List ApiResult) (rsF : WebRunState) (tr : List Event)
    (h : processDeletionRun fuel tweetIds b d oracle = some (rsF, tr)) :
    rsF.log = successIdsOf tr := by
  rw [processDeletionRun] at h
  obtain ⟨f1, f2, f3, f4⟩ := webOuter_spec fuel tweetIds b d
    ⟨0, ⟨0, 0, tweetIds.length⟩, []⟩ oracle rsF tr h (by norm_num) (by norm_num) (by simp)
  simpa using f3

theorem processDeletion_log_witness :
    (⟨5, ⟨1, 1, 2⟩, ["b"]⟩ : WebRunState).log
      = successIdsOf [Event.attempt "a" (.failure "e") 0 1,
          Event.attempt "b" .success 1 1] :=
  processDeletion_log_is_successes_in_order 10 ["a", "b"] 5 90 [.failure "e", .success]
    ⟨5, ⟨1, 1, 2⟩, ["b"]⟩
    [Event.attempt "a" (.failure "e") 0 1, Event.attempt "b" .success 1 1] rfl

theorem countInterBatch_cons_attempt (tid : String) (r : ApiResult) (dA fA : Nat)
    (tr : List Event) :
    countInterBatch (.attempt tid r dA fA :: tr) = countInterBatch tr := rfl

theorem countInterBatch_cons_rateSleep (m : Int) (tr : List Event) :
    countInterBatch (.rateSleep m :: tr) = countInterBatch tr := rfl

theorem countInterBatch_cons_inter (m : Nat) (tr : List Event) :
    countInterBatch (.interBatchSleep m :: tr) = countInterBatch tr + 1 := rfl

/-- The CLI inner loop never sleeps between batches: its trace contains no
inter-batch event at all (those are emitted by the outer loop only). -/
theorem cliInner_no_interBatch (batch : List String) :
    ∀ (oracle : List ApiResult) (j : Nat) (st stF : CliRunState)
      (o : List ApiResult) (tr : List Event),
      cliInner batch j st oracle = some (stF, o, tr) →
      countInterBatch tr = 0 ∧ (∀ m, Event.interBatchSleep m ∉ tr) := by
  intro oracle
  induction oracle with
  | nil =>
    intro j st stF o tr h
    rw [cliInner] at h
    by_cases hj : j < batch.length
    · rw [if_pos hj] at h
      simp at h
    · rw [if_neg hj] at h
      simp only [Option.some.injEq, Prod.mk.injEq] at h
      obtain ⟨rfl, rfl, rfl⟩ := h
      exact ⟨rfl, by simp⟩
  | cons r oracle ih =>
    intro j st stF o tr h
    cases r with
    | success =>
      rw [cliInner] at h
      by_cases hj : j < batch.length
      · rw [dif_pos hj] at h
        cases hrec : cliInner batch (j + 1) ⟨st.deletedCount + 1, st.failedCount,
            st.deletedTweets ++ [batch.get ⟨j, hj⟩]⟩ oracle with
        | none => rw [hrec] at h; simp at h
        | some trip =>
          obtain ⟨st₁, o₁, tr₁⟩ := trip
          rw [hrec] at h
          simp only [Option.some.injEq, Prod.mk.injEq] at h
          obtain ⟨rfl, rfl, rfl⟩ := h
          obtain ⟨c1, c2⟩ := ih _ _ _ _ _ hrec
          refine ⟨by rw [countInterBatch_cons_attempt]; exact c1, ?_⟩
          intro m hm
          simp only [List.mem_cons] at hm
          rcases hm with hme | hm
          · exact absurd hme (by simp)
          · exact c2 m hm
      · rw [dif_neg hj] at h
        simp only [Option.some.injEq, Prod.mk.injEq] at h
        obtain ⟨rfl, rfl, rfl⟩ := h
        exact ⟨rfl, by simp⟩
    | failure msg =>
      rw [cliInner] at h
      by_cases hj : j < batch.length
      · rw [dif_pos hj] at h
        cases hrec : cliInner batch (j + 1) ⟨st.deletedCount, st.failedCount + 1,
            st.deletedTweets⟩ oracle with
        | none => rw [hrec] at h; simp at h
        | some trip =>
          obtain ⟨st₁, o₁, tr₁⟩ := trip
          rw [hrec] at h
          simp only [Option.some.injEq, Prod.mk.injEq] at h
          obtain ⟨rfl, rfl, rfl⟩ := h
          obtain ⟨c1, c2⟩ := ih _ _ _ _ _ hrec
          refine ⟨by rw [countInterBatch_cons_attempt]; exact c1, ?_⟩
          intro m hm
          simp only [List.mem_cons] at hm
          rcases hm with hme | hm
          · exact absurd hme (by simp)
          · exact c2 m hm
      · rw [dif_neg hj] at h
        simp only [Option.some.injEq, Prod.mk.injEq] at h
        obtain ⟨rfl, rfl, rfl⟩ := h
        exact ⟨rfl, by simp⟩
    | throttle reset nowMs =>
      rw [cliInner] at h
      by_cases hj : j < batch.length
      · rw [dif_pos hj] at h
        cases hrec : cliInner batch j st oracle with
        | none => rw [hrec] at h; simp at h
        | some trip =>
          obtain ⟨st₁, o₁, tr₁⟩ := trip
          rw [hrec] at h
          simp only [Option.some.injEq, Prod.mk.injEq] at h
          obtain ⟨rfl, rfl, rfl⟩ := h
          obtain ⟨c1, c2⟩ := ih _ _ _ _ _ hrec
          refine ⟨by rw [countInterBatch_cons_attempt, countInterBatch_cons_rateSleep]; exact c1, ?_⟩
          intro m hm
          simp only [List.mem_cons] at hm
          rcases hm with hme | hme | hm
          · exact absurd hme (by simp)
          · exact absurd hme (by simp)
          · exact c2 m hm
      · rw [dif_neg hj] at h
        simp only [Option.some.injEq, Prod.mk.injEq] at h
        obtain ⟨rfl, rfl, rfl⟩ := h
        exact ⟨rfl, by simp⟩

/-- The CLI outer loop started at index `i` performs exactly
`(N − i − 1) / B` inter-batch sleeps when `i < N` (and none otherwise), each
of exactly `batchDelayMinutes`, whatever the attempt outcomes are. -/
theorem cliOuter_interBatch_spec :
    ∀ (fuel : Nat) (tweets : List String) (b d : Nat) (i : Nat) (st : CliRunState)
      (oracle : List ApiResult) (stF : CliRunState) (tr : List Event),
      cliOuter fuel tweets b d i st oracle = some (stF, tr) → 0 < b →
      countInterBatch tr
          = (if i < tweets.length then (tweets.length - i - 1) / b else 0) ∧
      (∀ m, Event.interBatchSleep m ∈ tr → m = d) := by
  intro fuel
  induction fuel with
  | zero =>
    intro tweets b d i st oracle stF tr h hb
    rw [cliOuter] at h
    simp at h
  | succ fuel ih =>
    intro tweets b d i st oracle stF tr h hb
    rw [cliOuter] at h
    by_cases hi : i < tweets.length
    · rw [if_pos hi] at h
      cases hrec : cliInner ((tweets.drop i).take b) 0 st oracle with
      | none => rw [hrec] at h; simp at h
      | some trip =>
        obtain ⟨st₁, o₁, tr₁⟩ := trip
        rw [hrec] at h
        dsimp only at h
        cases hrec2 : cliOuter fuel tweets b d (i + b) st₁ o₁ with
        | none => rw [hrec2] at h; simp at h
        | some pF =>
          obtain ⟨stF', trR⟩ := pF
          rw [hrec2] at h
          simp only [Option.some.injEq, Prod.mk.injEq] at h
          obtain ⟨rfl, rfl⟩ := h
          obtain ⟨c1, c2⟩ := cliInner_no_interBatch _ _ _ _ _ _ _ hrec
          obtain ⟨g1, g2⟩ := ih tweets b d (i + b) st₁ o₁ stF' trR hrec2 hb
          rw [if_pos hi]
          constructor
          · rw [countInterBatch_append, countInterBatch_append, c1]
            by_cases hib : i + b < tweets.length
            · rw [if_pos hib] at g1 ⊢
              rw [g1]
              rw [show countInterBatch [Event.interBatchSleep d] = 1 from rfl]
              have hsub : tweets.length - i - 1 = (tweets.length - (i + b) - 1) + b := by
                omega
              rw [hsub, Nat.add_div_right _ hb]
              omega
            · rw [if_neg hib] at g1 ⊢
              rw [g1]
              rw [show countInterBatch ([] : List Event) = 0 from rfl]
              rw [Nat.div_eq_of_lt (by omega)]
          · intro m hm
            simp only [List.mem_append] at hm
            rcases hm with (hm | hm) | hm
            · exact absurd hm (c2 m)
            · by_cases hib : i + b < tweets.length
              · rw [if_pos hib] at hm
                simp at hm
                exact hm
              · rw [if_neg hib] at hm
                simp at hm
            · exact g2 m hm
    · rw [if_neg hi] at h
      simp only [Option.some.injEq, Prod.mk.injEq] at h
      obtain ⟨rfl, rfl⟩ := h
      rw [if_neg hi]
      exact ⟨rfl, by simp⟩

/-- C6 (code bug): the CLI scheduler `deleteTweetsInBatches` suspends for
exactly `batchDelayMinutes` after each non-final chunk and never after the
final one — every completed run performs exactly ceil(N/B) − 1 inter-batch
delays (second conjunct, proved for all inputs).  The web scheduler
`processDeletion`, however, violates the claim: because the 429 handler
decrements the outer index, a throttle during the final chunk re-arms the
inter-batch check, and the concrete run below (10 ids, B = 5, a 429 without
reset time on the last id, then success) performs 2 inter-batch delays where
ceil(10/5) − 1 = 1 (first conjunct). -/
theorem interBatch_delay_spec :
    ((processDeletionRun 20 ["t0", "t1", "t2", "t3", "t4", "t5", "t6", "t7", "t8", "t9"] 5 90
          [.success, .success, .success, .success, .success, .success, .success, .success,
            .success, .throttle none 0, .success]).map (fun p => countInterBatch p.2)
        = some 2 ∧
      (10 + 5 - 1) / 5 - 1 = 1) ∧
    (∀ (fuel : Nat) (tweets : List String) (b d : Nat) (oracle : List ApiResult)
        (stF : CliRunState) (tr : List Event),
      deleteTweetsInBatchesRun fuel tweets b d oracle = some (stF, tr) → 0 < b →
      countInterBatch tr = (tweets.length + b - 1) / b - 1 ∧
      (∀ m, Event.interBatchSleep m ∈ tr → m = d)) := by
  refine ⟨⟨by rfl, by norm_num⟩, ?_⟩
  intro fuel tweets b d oracle stF tr h hb
  rw [deleteTweetsInBatchesRun] at h
  obtain ⟨g1, g2⟩ := cliOuter_interBatch_spec fuel tweets b d 0 ⟨0, 0, []⟩ oracle stF tr h hb
  refine ⟨?_, g2⟩
  rw [g1]
  by_cases hlen : 0 < tweets.length
  · rw [if_pos hlen]
    have hsplit : tweets.length + b - 1 = (tweets.length - 0 - 1) + b := by omega
    rw [hsplit, Nat.add_div_right _ hb, Nat.add_sub_cancel]
  · rw [if_neg hlen]
    have h0 : tweets.length = 0 := by omega
    rw [h0, show 0 + b - 1 = b - 1 from by omega, Nat.div_eq_of_lt (by omega)]

theorem interBatch_delay_witness :
    countInterBatch [Event.attempt "a" .success 1 0, Event.attempt "b" .success 2 0,
        Event.interBatchSleep 90, Event.attempt "c" .success 3 0]
        = ((["a", "b", "c"] : List String).length + 2 - 1) / 2 - 1 ∧
      (∀ m, Event.interBatchSleep m ∈ [Event.attempt "a" .success 1 0,
          Event.attempt "b" .success 2 0, Event.interBatchSleep 90,
          Event.attempt "c" .success 3 0] → m = 90) :=
  interBatch_delay_spec.2 20 ["a", "b", "c"] 2 90 [.success, .success, .success]
    ⟨3, 0, ["a", "b", "c"]⟩
    [Event.attempt "a" .success 1 0, Event.attempt "b" .success 2 0,
      Event.interBatchSleep 90, Event.attempt "c" .success 3 0] rfl (by norm_num)

/-- What holds of the CLI inner loop but NOT of the web inner loop: in the
attempt sequence of any completed `deleteTweetsInBatches` batch, an attempt
answered by a 429 is immediately followed by another attempt on the SAME
tweet — `j--; continue` on the indexed loop re-runs `batch[j]`.  The first
conjunct identifies the head attempt when the loop enters at `j`; the second
is the retry property. -/
theorem cliInner_throttle_retries_same (batch : List String) :
    ∀ (oracle : List ApiResult) (j : Nat) (st stF : CliRunState)
      (o : List ApiResult) (tr : List Event),
      cliInner batch j st oracle = some (stF, o, tr) →
      (∀ hj : j < batch.length,
        ∃ r0, (attemptsOf tr).head? = some (batch.get ⟨j, hj⟩, r0)) ∧
      (∀ (k : Nat) (tid : String) (reset : Option Int) (nowMs : Int),
        (attemptsOf tr)[k]? = some (tid, .throttle reset nowMs) →
        ∃ r2, (attemptsOf tr)[k + 1]? = some (tid, r2)) := by
  intro oracle
  induction oracle with
  | nil =>
    intro j st stF o tr h
    rw [cliInner] at h
    by_cases hj : j < batch.length
    · rw [if_pos hj] at h
      simp at h
    · rw [if_neg hj] at h
      simp only [Option.some.injEq, Prod.mk.injEq] at h
      obtain ⟨rfl, rfl, rfl⟩ := h
      exact ⟨fun hjc => absurd hjc hj, by simp [attemptsOf]⟩
  | cons r oracle ih =>
    intro j st stF o tr h
    cases r with
    | success =>
      rw [cliInner] at h
      by_cases hj : j < batch.length
      · rw [dif_pos hj] at h
        cases hrec : cliInner batch (j + 1) ⟨st.deletedCount + 1, st.failedCount,
            st.deletedTweets ++ [batch.get ⟨j, hj⟩]⟩ oracle with
        | none => rw [hrec] at h; simp at h
        | some trip =>
          obtain ⟨st₁, o₁, tr₁⟩ := trip
          rw [hrec] at h
          simp only [Option.some.injEq, Prod.mk.injEq] at h
          obtain ⟨rfl, rfl, rfl⟩ := h
          obtain ⟨ih1, ih2⟩ := ih _ _ _ _ _ hrec
          rw [show attemptsOf (Event.attempt (batch.get ⟨j, hj⟩) ApiResult.success
              (st.deletedCount + 1) st.failedCount :: tr₁)
            = (batch.get ⟨j, hj⟩, ApiResult.success) :: attemptsOf tr₁ from rfl]
          refine ⟨fun hjc => ⟨ApiResult.success, by simp⟩, ?_⟩
          intro k tid reset nowMs hk
          cases k with
          | zero => simp at hk
          | succ k =>
            simp only [List.getElem?_cons_succ] at hk ⊢
            exact ih2 k tid reset nowMs hk
      · rw [dif_neg hj] at h
        simp only [Option.some.injEq, Prod.mk.injEq] at h
        obtain ⟨rfl, rfl, rfl⟩ := h
        exact ⟨fun hjc => absurd hjc hj, by simp [attemptsOf]⟩
    | failure msg =>
      rw [cliInner] at h
      by_cases hj : j < batch.length
      · rw [dif_pos hj] at h
        cases hrec : cliInner batch (j + 1) ⟨st.deletedCount, st.failedCount + 1,
            st.deletedTweets⟩ oracle with
        | none => rw [hrec] at h; simp at h
        | some trip =>
          obtain ⟨st₁, o₁, tr₁⟩ := trip
          rw [hrec] at h
          simp only [Option.some.injEq, Prod.mk.injEq] at h
          obtain ⟨rfl, rfl, rfl⟩ := h
          obtain ⟨ih1, ih2⟩ := ih _ _ _ _ _ hrec
          rw [show attemptsOf (Event.attempt (batch.get ⟨j, hj⟩) (ApiResult.failure msg)
              st.deletedCount (st.failedCount + 1) :: tr₁)
            = (batch.get ⟨j, hj⟩, ApiResult.failure msg) :: attemptsOf tr₁ from rfl]
          refine ⟨fun hjc => ⟨ApiResult.failure msg, by simp⟩, ?_⟩
          intro k tid reset nowMs hk
          cases k with
          | zero => simp at hk
          | succ k =>
            simp only [List.getElem?_cons_succ] at hk ⊢
            exact ih2 k tid reset nowMs hk
      · rw [dif_neg hj] at h
        simp only [Option.some.injEq, Prod.mk.injEq] at h
        obtain ⟨rfl, rfl, rfl⟩ := h
        exact ⟨fun hjc => absurd hjc hj, by simp [attemptsOf]⟩
    | throttle reset0 nowMs0 =>
      rw [cliInner] at h
      by_cases hj : j < batch.length
      · rw [dif_pos hj] at h
        cases hrec : cliInner batch j st oracle with
        | none => rw [hrec] at h; simp at h
        | some trip =>
          obtain ⟨st₁, o₁, tr₁⟩ := trip
          rw [hrec] at h
          simp only [Option.some.injEq, Prod.mk.injEq] at h
          obtain ⟨rfl, rfl, rfl⟩ := h
          obtain ⟨ih1, ih2⟩ := ih _ _ _ _ _ hrec
          rw [show attemptsOf (Event.attempt (batch.get ⟨j, hj⟩)
              (ApiResult.throttle reset0 nowMs0) st.deletedCount st.failedCount ::
                Event.rateSleep (rateLimitWaitCli reset0 nowMs0) :: tr₁)
            = (batch.get ⟨j, hj⟩, ApiResult.throttle reset0 nowMs0) :: attemptsOf tr₁
              from rfl]
          refine ⟨fun hjc => ⟨ApiResult.throttle reset0 nowMs0, by simp⟩, ?_⟩
          intro k tid reset nowMs hk
          cases k with
          | zero =>
            simp only [List.getElem?_cons_zero, Option.some.injEq, Prod.mk.injEq] at hk
            obtain ⟨rfl, -⟩ := hk
            obtain ⟨r0, hr0⟩ := ih1 hj
            refine ⟨r0, ?_⟩
            simp only [List.getElem?_cons_succ]
            rw [← List.head?_eq_getElem?]
            exact hr0
          | succ k =>
            simp only [List.getElem?_cons_succ] at hk ⊢
            exact ih2 k tid reset nowMs hk
      · rw [dif_neg hj] at h
        simp only [Option.some.injEq, Prod.mk.injEq] at h
        obtain ⟨rfl, rfl, rfl⟩ := h
        exact ⟨fun hjc => absurd hjc hj, by simp [attemptsOf]⟩

end Deletweet
